import Mathlib

/-!
Verification development for a quantum-autoencoder fraud-detection notebook.
The notebook builds a PennyLane circuit over n_qubits = 4 wires and L = 4
variational layers: an RY angle-encoding of the sample, per layer an RX, RY, RZ
rotation on every wire followed by a ring of CNOT gates, and a final Pauli-Z
expectation on the last (trash) wire.  The state-vector semantics of the gates
is embedded below over exact complex amplitudes; the batching, training loop,
fidelity scoring and metrics of the notebook are embedded as plain functions.
-/

namespace QAE

noncomputable section

/-- Rotation axis of a parameterized single-qubit gate. -/
inductive Axis : Type
  | X : Axis
  | Y : Axis
  | Z : Axis
deriving DecidableEq

/-- State vector of an n-qubit register: one complex amplitude per basis
bitstring, the shallow embedding of the flat size-2^n amplitude array. -/
abbrev QState (n : ℕ) : Type := (Fin n → Bool) → ℂ

/-- Entry (row, column) of the rotation-gate matrix about the given axis, in
the conventions of the source's gate library: RX and RY are built from cos and
sin of the half angle, RZ is the diagonal phase matrix with entries
exp(-i t/2) and exp(i t/2). -/
def rotM : Axis → ℝ → Bool → Bool → ℂ
  | Axis.X, t => fun r c =>
      if r = c then (Real.cos (t / 2) : ℂ) else -Complex.I * (Real.sin (t / 2) : ℂ)
  | Axis.Y, t => fun r c =>
      if r = c then (Real.cos (t / 2) : ℂ)
      else if r then (Real.sin (t / 2) : ℂ) else -(Real.sin (t / 2) : ℂ)
  | Axis.Z, t => fun r c =>
      if r = c then Complex.exp ((if r then (t / 2 : ℝ) else -(t / 2 : ℝ)) * Complex.I)
      else 0

/-- Apply a single-qubit gate with matrix m to wire w of the state.  A wire
index outside the register is a precondition violation in the source and is
totalized here as the identity. -/
def applyM (n : ℕ) (m : Bool → Bool → ℂ) (w : ℕ) (ψ : QState n) : QState n :=
  if h : w < n then
    fun b => m (b ⟨w, h⟩) false * ψ (Function.update b ⟨w, h⟩ false)
           + m (b ⟨w, h⟩) true  * ψ (Function.update b ⟨w, h⟩ true)
  else ψ

/-- Basis-state action of the controlled flip: when the control bit is set the
target bit is flipped, otherwise the bitstring is unchanged. -/
def cnotFlip (n : ℕ) (c t : Fin n) (b : Fin n → Bool) : Fin n → Bool :=
  if b c then Function.update b t (!(b t)) else b

/-- Apply a CNOT gate with the given control and target wires.  Invalid wire
pairs (out of range, or control equal to target) are precondition violations
in the source and are totalized here as the identity. -/
def applyCNOT (n : ℕ) (c t : ℕ) (ψ : QState n) : QState n :=
  if h : c < n ∧ t < n ∧ c ≠ t then
    fun b => ψ (cnotFlip n ⟨c, h.1⟩ ⟨t, h.2.1⟩ b)
  else ψ

/-- One gate of the circuit: a parameterized rotation on a wire, or a CNOT. -/
inductive Gate : Type
  | rot (a : Axis) (t : ℝ) (w : ℕ)
  | cnot (c t : ℕ)

/-- Semantics of a single gate on the state vector. -/
def applyG (n : ℕ) : Gate → QState n → QState n
  | Gate.rot a t w => applyM n (rotM a t) w
  | Gate.cnot c t => applyCNOT n c t

/-- Run a list of gates left to right on a state. -/
def runGates (n : ℕ) (gs : List Gate) (ψ : QState n) : QState n :=
  gs.foldl (fun φ g => applyG n g φ) ψ

/-- Initial state: amplitude 1 on the all-zero bitstring (index 0), else 0. -/
def initState (n : ℕ) : QState n :=
  fun b => if b = (fun _ => false) then 1 else 0

/-- Sign contributed by basis state b to the Pauli-Z expectation on wire w:
+1 when the bit is 0 and -1 when the bit is 1. -/
def zsign (n w : ℕ) (b : Fin n → Bool) : ℝ :=
  if h : w < n then (if b ⟨w, h⟩ then -1 else 1) else 1

/-- Pauli-Z expectation value on wire w of a state. -/
def expZ (n w : ℕ) (ψ : QState n) : ℝ :=
  ∑ b : Fin n → Bool, zsign n w b * Complex.normSq (ψ b)

/-- Sum of squared amplitude magnitudes of a state. -/
def stateNorm (n : ℕ) (ψ : QState n) : ℝ :=
  ∑ b : Fin n → Bool, Complex.normSq (ψ b)

/-- Encoding gates of the circuit: an RY rotation on each wire i whose angle
is the i-th sample component (AngleEmbedding with rotation Y). -/
def encGates (n : ℕ) (x : ℕ → ℝ) : List Gate :=
  (List.range n).map (fun i => Gate.rot Axis.Y (x i) i)

/-- The three parameterized rotations a variational layer applies to wire w:
RX with the axis-0 parameter, then RY with axis 1, then RZ with axis 2. -/
def rotTriple (theta : ℕ → ℕ → ℝ) (w : ℕ) : List Gate :=
  [Gate.rot Axis.X (theta w 0) w, Gate.rot Axis.Y (theta w 1) w,
   Gate.rot Axis.Z (theta w 2) w]

/-- The ring of entangling CNOT gates: control w, target (w+1) mod n, for
every wire w, including the wrap-around edge. -/
def entGates (n : ℕ) : List Gate :=
  (List.range n).map (fun w => Gate.cnot w ((w + 1) % n))

/-- One variational layer of the source: RX, RY, RZ on every wire (wire by
wire), followed by the circular CNOT entangling layer. -/
def qae_layer (n : ℕ) (theta : ℕ → ℕ → ℝ) : List Gate :=
  ((List.range n).map (rotTriple theta)).flatten ++ entGates n

/-- The full gate list of the circuit: encoding followed by L variational
layers, layer l using slice l of the parameter tensor W. -/
def circuitGates (n L : ℕ) (x : ℕ → ℝ) (W : ℕ → ℕ → ℕ → ℝ) : List Gate :=
  encGates n x ++ ((List.range L).map (fun l => qae_layer n (W l))).flatten

/-- Forward evaluation of the source circuit: run all gates on the initial
state and return the Pauli-Z expectation of the last (trash) wire. -/
def qae_circuit (n L : ℕ) (x : ℕ → ℝ) (W : ℕ → ℕ → ℕ → ℝ) : ℝ :=
  expZ n (n - 1) (runGates n (circuitGates n L x W) (initState n))

/-- Fidelity score of a sample under frozen parameters, as computed in the
source for both training and evaluation: (measurement + 1) / 2. -/
def fidelity (n L : ℕ) (x : ℕ → ℝ) (W : ℕ → ℕ → ℕ → ℝ) : ℝ :=
  (qae_circuit n L x W + 1) / 2

/-- Predicted label of a sample at threshold T, as in the source: 1 (fraud)
exactly when the fidelity is strictly below the threshold, else 0. -/
def predLabel (n L : ℕ) (x : ℕ → ℝ) (W : ℕ → ℕ → ℕ → ℝ) (T : ℝ) : ℕ :=
  if fidelity n L x W < T then 1 else 0

/-- Batch cost of the source: mean reconstruction error 1 - fidelity over the
batch.  On an empty batch the source raises (stacking an empty list of terms),
embedded here as none. -/
def cost_fn (n L : ℕ) (W : ℕ → ℕ → ℕ → ℝ) (Xbatch : List (ℕ → ℝ)) : Option ℝ :=
  if Xbatch.isEmpty then none
  else some ((Xbatch.map (fun x => 1 - fidelity n L x W)).sum / (Xbatch.length : ℝ))

end

/-- Number of mini-batches the source's batch iterator produces on a dataset
of N samples with the given batch size: the length of range(0, N, bs). -/
def numBatches (N bs : ℕ) : ℕ := (N + bs - 1) / bs

/-- Mini-batch j of the source: the slice of the dataset from index j*bs of
length at most bs (Python slicing clamps at the end of the list). -/
def batchSlice {α : Type*} (xs : List α) (bs j : ℕ) : List α :=
  (xs.drop (j * bs)).take bs

/-- All mini-batches of one epoch, in the order the source iterates them. -/
def batchList {α : Type*} (xs : List α) (bs : ℕ) : List (List α) :=
  (List.range (numBatches xs.length bs)).map (batchSlice xs bs)

noncomputable section

/-- One epoch of the source's training loop: fold the optimizer step over the
mini-batches, then evaluate the monitoring loss on the leading slice of the
training set; the epoch fails (none) when that evaluation fails. -/
def trainEpoch (step : (ℕ → ℕ → ℕ → ℝ) → List (ℕ → ℝ) → (ℕ → ℕ → ℕ → ℝ))
    (n L bs : ℕ) (xs : List (ℕ → ℝ)) (W : ℕ → ℕ → ℕ → ℝ) :
    Option (ℕ → ℕ → ℕ → ℝ) :=
  let W' := (batchList xs bs).foldl step W
  match cost_fn n L W' (xs.take bs) with
  | none => none
  | some _ => some W'

/-- The source's training loop: a fixed number of epochs run in sequence,
propagating failure. -/
def train (step : (ℕ → ℕ → ℕ → ℝ) → List (ℕ → ℝ) → (ℕ → ℕ → ℕ → ℝ))
    (n L bs : ℕ) (xs : List (ℕ → ℝ)) : ℕ → (ℕ → ℕ → ℕ → ℝ) → Option (ℕ → ℕ → ℕ → ℝ)
  | 0, W => some W
  | e + 1, W =>
    match trainEpoch step n L bs xs W with
    | none => none
    | some W' => train step n L bs xs e W'

end

open ComplexConjugate

theorem cnotFlip_involutive {n : ℕ} (c t : Fin n) (hne : c ≠ t) (b : Fin n → Bool) :
    cnotFlip n c t (cnotFlip n c t b) = b := by
  unfold cnotFlip
  by_cases hb : b c
  · have hc' : Function.update b t (!(b t)) c = b c :=
      Function.update_noteq hne _ b
    simp only [hb, if_true, hc', Function.update_same, Bool.not_not,
      Function.update_idem, Function.update_eq_self]
  · simp [hb]

/-! Splitting a sum over all basis bitstrings at one wire. -/

theorem funSplitAt_symm_at {n : ℕ} (i : Fin n) (x : Bool) (r : {j : Fin n // j ≠ i} → Bool) :
    (Equiv.funSplitAt i Bool).symm (x, r) i = x := by
  simp [Equiv.funSplitAt, Equiv.piSplitAt]

theorem funSplitAt_symm_update {n : ℕ} (i : Fin n) (x y : Bool)
    (r : {j : Fin n // j ≠ i} → Bool) :
    Function.update ((Equiv.funSplitAt i Bool).symm (x, r)) i y
      = (Equiv.funSplitAt i Bool).symm (y, r) := by
  funext j
  by_cases h : j = i
  · subst h
    simp [Equiv.funSplitAt, Equiv.piSplitAt]
  · simp [Function.update_noteq h, Equiv.funSplitAt, Equiv.piSplitAt, h]

theorem sum_split_at {n : ℕ} (i : Fin n) (F : (Fin n → Bool) → ℝ) :
    ∑ b : Fin n → Bool, F b
      = ∑ r : {j : Fin n // j ≠ i} → Bool,
          (F ((Equiv.funSplitAt i Bool).symm (false, r))
            + F ((Equiv.funSplitAt i Bool).symm (true, r))) := by
  rw [← Equiv.sum_comp (Equiv.funSplitAt i Bool).symm F, Fintype.sum_prod_type_right]
  refine Finset.sum_congr rfl (fun r _ => ?_)
  rw [Fintype.sum_bool]
  ring

/-! Norm preservation of the gates. -/

theorem normSq_pair (m : Bool → Bool → ℂ)
    (h1 : Complex.normSq (m false false) + Complex.normSq (m true false) = 1)
    (h2 : Complex.normSq (m false true) + Complex.normSq (m true true) = 1)
    (h3 : m false false * conj (m false true) + m true false * conj (m true true) = 0)
    (A B : ℂ) :
    Complex.normSq (m false false * A + m false true * B)
      + Complex.normSq (m true false * A + m true true * B)
      = Complex.normSq A + Complex.normSq B := by
  have hre : (m false false * A * conj (m false true * B)
        + m true false * A * conj (m true true * B))
      = (m false false * conj (m false true) + m true false * conj (m true true))
          * (A * conj B) := by
    simp only [map_mul]
    ring
  have hre0 : (m false false * A * conj (m false true * B)).re
      + (m true false * A * conj (m true true * B)).re = 0 := by
    rw [← Complex.add_re, hre, h3, zero_mul, Complex.zero_re]
  rw [Complex.normSq_add, Complex.normSq_add, Complex.normSq_mul, Complex.normSq_mul,
    Complex.normSq_mul, Complex.normSq_mul]
  linear_combination Complex.normSq A * h1 + Complex.normSq B * h2 + 2 * hre0

theorem rotM_col1 (a : Axis) (t : ℝ) :
    Complex.normSq (rotM a t false false) + Complex.normSq (rotM a t true false) = 1 := by
  cases a with
  | X =>
    show Complex.normSq ((Real.cos (t / 2) : ℂ))
        + Complex.normSq (-Complex.I * (Real.sin (t / 2) : ℂ)) = 1
    rw [Complex.normSq_mul, Complex.normSq_neg, Complex.normSq_I, one_mul,
      Complex.normSq_ofReal, Complex.normSq_ofReal]
    linear_combination Real.sin_sq_add_cos_sq (t / 2)
  | Y =>
    show Complex.normSq ((Real.cos (t / 2) : ℂ))
        + Complex.normSq ((Real.sin (t / 2) : ℂ)) = 1
    rw [Complex.normSq_ofReal, Complex.normSq_ofReal]
    linear_combination Real.sin_sq_add_cos_sq (t / 2)
  | Z =>
    show Complex.normSq (Complex.exp (((-(t / 2) : ℝ) : ℂ) * Complex.I))
        + Complex.normSq 0 = 1
    rw [Complex.normSq_zero, add_zero, Complex.normSq_eq_abs,
      Complex.abs_exp_ofReal_mul_I, one_pow]

theorem rotM_col2 (a : Axis) (t : ℝ) :
    Complex.normSq (rotM a t false true) + Complex.normSq (rotM a t true true) = 1 := by
  cases a with
  | X =>
    show Complex.normSq (-Complex.I * (Real.sin (t / 2) : ℂ))
        + Complex.normSq ((Real.cos (t / 2) : ℂ)) = 1
    rw [Complex.normSq_mul, Complex.normSq_neg, Complex.normSq_I, one_mul,
      Complex.normSq_ofReal, Complex.normSq_ofReal]
    linear_combination Real.sin_sq_add_cos_sq (t / 2)
  | Y =>
    show Complex.normSq (-(Real.sin (t / 2) : ℂ))
        + Complex.normSq ((Real.cos (t / 2) : ℂ)) = 1
    rw [Complex.normSq_neg, Complex.normSq_ofReal, Complex.normSq_ofReal]
    linear_combination Real.sin_sq_add_cos_sq (t / 2)
  | Z =>
    show Complex.normSq 0
        + Complex.normSq (Complex.exp (((t / 2 : ℝ) : ℂ) * Complex.I)) = 1
    rw [Complex.normSq_zero, zero_add, Complex.normSq_eq_abs,
      Complex.abs_exp_ofReal_mul_I, one_pow]

theorem rotM_orth (a : Axis) (t : ℝ) :
    rotM a t false false * conj (rotM a t false true)
      + rotM a t true false * conj (rotM a t true true) = 0 := by
  cases a with
  | X =>
    show (Real.cos (t / 2) : ℂ) * conj (-Complex.I * (Real.sin (t / 2) : ℂ))
        + (-Complex.I * (Real.sin (t / 2) : ℂ)) * conj ((Real.cos (t / 2) : ℂ)) = 0
    simp only [map_mul, map_neg, Complex.conj_I, Complex.conj_ofReal]
    ring
  | Y =>
    show (Real.cos (t / 2) : ℂ) * conj (-(Real.sin (t / 2) : ℂ))
        + (Real.sin (t / 2) : ℂ) * conj ((Real.cos (t / 2) : ℂ)) = 0
    simp only [map_neg, Complex.conj_ofReal]
    ring
  | Z =>
    show Complex.exp (((-(t / 2) : ℝ) : ℂ) * Complex.I) * conj 0
        + 0 * conj (Complex.exp (((t / 2 : ℝ) : ℂ) * Complex.I)) = 0
    simp only [map_zero, mul_zero, zero_mul, add_zero]

theorem stateNorm_applyM {n : ℕ} (m : Bool → Bool → ℂ) (w : ℕ)
    (h1 : Complex.normSq (m false false) + Complex.normSq (m true false) = 1)
    (h2 : Complex.normSq (m false true) + Complex.normSq (m true true) = 1)
    (h3 : m false false * conj (m false true) + m true false * conj (m true true) = 0)
    (ψ : QState n) :
    stateNorm n (applyM n m w ψ) = stateNorm n ψ := by
  by_cases h : w < n
  · simp only [applyM, dif_pos h]
    unfold stateNorm
    rw [sum_split_at ⟨w, h⟩, sum_split_at ⟨w, h⟩ (fun b => Complex.normSq (ψ b))]
    refine Finset.sum_congr rfl (fun r _ => ?_)
    simp only [funSplitAt_symm_at, funSplitAt_symm_update]
    exact normSq_pair m h1 h2 h3 _ _
  · simp only [applyM, dif_neg h]

theorem stateNorm_applyCNOT {n : ℕ} (c t : ℕ) (ψ : QState n) :
    stateNorm n (applyCNOT n c t ψ) = stateNorm n ψ := by
  unfold applyCNOT
  by_cases h : c < n ∧ t < n ∧ c ≠ t
  · rw [dif_pos h]
    have hinv : Function.Involutive (cnotFlip n ⟨c, h.1⟩ ⟨t, h.2.1⟩) :=
      fun b => cnotFlip_involutive _ _ (Fin.ne_of_val_ne h.2.2) b
    have := Equiv.sum_comp hinv.toPerm (fun b => Complex.normSq (ψ b))
    simpa [stateNorm, Function.Involutive.coe_toPerm] using this
  · rw [dif_neg h]

theorem stateNorm_applyG {n : ℕ} (g : Gate) (ψ : QState n) :
    stateNorm n (applyG n g ψ) = stateNorm n ψ := by
  cases g with
  | rot a t w => exact stateNorm_applyM _ _ (rotM_col1 a t) (rotM_col2 a t) (rotM_orth a t) ψ
  | cnot c t => exact stateNorm_applyCNOT c t ψ

theorem stateNorm_runGates {n : ℕ} (gs : List Gate) (ψ : QState n) :
    stateNorm n (runGates n gs ψ) = stateNorm n ψ := by
  induction gs generalizing ψ with
  | nil => rfl
  | cons g gs ih =>
    simp only [runGates, List.foldl_cons] at *
    rw [ih (applyG n g ψ), stateNorm_applyG]

theorem stateNorm_initState (n : ℕ) : stateNorm n (initState n) = 1 := by
  unfold stateNorm initState
  rw [Finset.sum_eq_single (fun _ => false)]
  · simp
  · intro b _ hb
    simp [hb]
  · intro h
    exact absurd (Finset.mem_univ _) h

/-- C2: for every sample, parameter tensor and prefix length k, the state
reached after the first k gate applications of the circuit (starting from the
initialized state) has sum of squared amplitude magnitudes exactly 1. -/
theorem circuit_norm_invariant (n L k : ℕ) (x : ℕ → ℝ) (W : ℕ → ℕ → ℕ → ℝ) :
    stateNorm n (runGates n ((circuitGates n L x W).take k) (initState n)) = 1 := by
  rw [stateNorm_runGates, stateNorm_initState]

/-! Bounds on the Pauli-Z expectation. -/

theorem zsign_le_one (n w : ℕ) (b : Fin n → Bool) : zsign n w b ≤ 1 := by
  unfold zsign
  split_ifs <;> norm_num

theorem neg_one_le_zsign (n w : ℕ) (b : Fin n → Bool) : -1 ≤ zsign n w b := by
  unfold zsign
  split_ifs <;> norm_num

theorem expZ_le_stateNorm {n : ℕ} (w : ℕ) (ψ : QState n) :
    expZ n w ψ ≤ stateNorm n ψ := by
  refine Finset.sum_le_sum (fun b _ => ?_)
  exact mul_le_of_le_one_left (Complex.normSq_nonneg _) (zsign_le_one n w b)

theorem neg_stateNorm_le_expZ {n : ℕ} (w : ℕ) (ψ : QState n) :
    -stateNorm n ψ ≤ expZ n w ψ := by
  rw [stateNorm, ← Finset.sum_neg_distrib]
  refine Finset.sum_le_sum (fun b _ => ?_)
  have := mul_le_mul_of_nonneg_right (neg_one_le_zsign n w b) (Complex.normSq_nonneg (ψ b))
  linarith

/-- C9: the fidelity score equals (1 + measurement)/2 for the trash-qubit
measurement, lies in [0, 1], and a sample is flagged (label 1) exactly when
its fidelity is strictly below the threshold; at fidelity equal to the
threshold the label is 0. -/
theorem fidelity_bounds_and_threshold (n L : ℕ) (x : ℕ → ℝ) (W : ℕ → ℕ → ℕ → ℝ) (T : ℝ) :
    fidelity n L x W = (1 + qae_circuit n L x W) / 2
      ∧ 0 ≤ fidelity n L x W ∧ fidelity n L x W ≤ 1
      ∧ (predLabel n L x W T = 1 ↔ fidelity n L x W < T)
      ∧ (predLabel n L x W T = 0 ↔ ¬ fidelity n L x W < T) := by
  have hnorm : stateNorm n (runGates n (circuitGates n L x W) (initState n)) = 1 := by
    rw [stateNorm_runGates, stateNorm_initState]
  have hle : qae_circuit n L x W ≤ 1 := by
    unfold qae_circuit
    calc expZ n (n - 1) (runGates n (circuitGates n L x W) (initState n))
        ≤ stateNorm n (runGates n (circuitGates n L x W) (initState n)) :=
          expZ_le_stateNorm _ _
      _ = 1 := hnorm
  have hge : -1 ≤ qae_circuit n L x W := by
    unfold qae_circuit
    calc (-1 : ℝ) = -stateNorm n (runGates n (circuitGates n L x W) (initState n)) := by
          rw [hnorm]
      _ ≤ expZ n (n - 1) (runGates n (circuitGates n L x W) (initState n)) :=
          neg_stateNorm_le_expZ _ _
  refine ⟨by unfold fidelity; ring, ?_, ?_, ?_, ?_⟩
  · unfold fidelity
    linarith
  · unfold fidelity
    linarith
  · unfold predLabel
    split_ifs with h <;> simp [h]
  · unfold predLabel
    split_ifs with h <;> simp [h]

/-- C5: the entangling CNOT operation is self-inverse: for every state and
every valid control/target wire pair, applying it twice restores the state. -/
theorem cnot_self_inverse (n c t : ℕ) (ψ : QState n)
    (hc : c < n) (ht : t < n) (hne : c ≠ t) :
    applyCNOT n c t (applyCNOT n c t ψ) = ψ := by
  have h : c < n ∧ t < n ∧ c ≠ t := ⟨hc, ht, hne⟩
  have hfin : (⟨c, hc⟩ : Fin n) ≠ ⟨t, ht⟩ := Fin.ne_of_val_ne hne
  unfold applyCNOT
  rw [dif_pos h, dif_pos h]
  funext b
  rw [cnotFlip_involutive _ _ hfin b]

/-- Witness for C5 at a concrete state on two wires. -/
theorem cnot_self_inverse_witness :
    applyCNOT 2 0 1 (applyCNOT 2 0 1 (initState 2)) = initState 2 :=
  cnot_self_inverse 2 0 1 (initState 2) (by decide) (by decide) (by decide)

/-! Spec-side description of the forward evaluation, for the refinement claim:
these definitions follow the wording of the specification (initialize, encode
each qubit, apply the layers in order, measure the trash qubit), organized as
direct recursion on wire and layer counts rather than as the source's gate
list. -/

noncomputable section

/-- Spec wording for the rotation block a layer applies to one wire: RX, RY,
RZ in that order with the wire's three independent parameters. -/
def rotWireSpec (n : ℕ) (theta : ℕ → ℕ → ℝ) (w : ℕ) (ψ : QState n) : QState n :=
  applyM n (rotM Axis.Z (theta w 2)) w
    (applyM n (rotM Axis.Y (theta w 1)) w
      (applyM n (rotM Axis.X (theta w 0)) w ψ))

/-- Rotation blocks of one layer applied to wires 0..k-1 in order. -/
def rotsSpec (n : ℕ) (theta : ℕ → ℕ → ℝ) : ℕ → QState n → QState n
  | 0, ψ => ψ
  | k + 1, ψ => rotWireSpec n theta k (rotsSpec n theta k ψ)

/-- Entangling ring applied to wires 0..k-1 in order: CNOT from wire w to wire
(w+1) mod n, including the wrap-around edge. -/
def cnotsSpec (n : ℕ) : ℕ → QState n → QState n
  | 0, ψ => ψ
  | k + 1, ψ => applyCNOT n k ((k + 1) % n) (cnotsSpec n k ψ)

/-- One variational layer per the spec: rotations on every wire, then the ring
of entangling operations. -/
def layerSpec (n : ℕ) (theta : ℕ → ℕ → ℝ) (ψ : QState n) : QState n :=
  cnotsSpec n n (rotsSpec n theta n ψ)

/-- Layers 0..l-1 applied in order with successive parameter slices. -/
def layersSpec (n : ℕ) (W : ℕ → ℕ → ℕ → ℝ) : ℕ → QState n → QState n
  | 0, ψ => ψ
  | l + 1, ψ => layerSpec n (W l) (layersSpec n W l ψ)

/-- RY encoding per the spec: wire i rotated by the i-th sample component, for
wires 0..k-1 in order. -/
def encodeSpec (n : ℕ) (x : ℕ → ℝ) : ℕ → QState n → QState n
  | 0, ψ => ψ
  | k + 1, ψ => applyM n (rotM Axis.Y (x k)) k (encodeSpec n x k ψ)

/-- Forward evaluation as the specification words it: initialize the state,
encode, apply the L layers in order, return the Pauli-Z expectation of the
last (trash) qubit. -/
def forwardSpec (n L : ℕ) (x : ℕ → ℝ) (W : ℕ → ℕ → ℕ → ℝ) : ℝ :=
  expZ n (n - 1) (layersSpec n W L (encodeSpec n x n (initState n)))

end

theorem runGates_append (n : ℕ) (gs1 gs2 : List Gate) (ψ : QState n) :
    runGates n (gs1 ++ gs2) ψ = runGates n gs2 (runGates n gs1 ψ) := by
  unfold runGates
  exact List.foldl_append _ _ gs1 gs2

theorem runGates_enc (n : ℕ) (x : ℕ → ℝ) :
    ∀ (k : ℕ) (ψ : QState n),
      runGates n ((List.range k).map (fun i => Gate.rot Axis.Y (x i) i)) ψ
        = encodeSpec n x k ψ := by
  intro k
  induction k with
  | zero => intro ψ; rfl
  | succ k ih =>
    intro ψ
    rw [List.range_succ, List.map_append, runGates_append, ih]
    rfl

theorem runGates_rots (n : ℕ) (theta : ℕ → ℕ → ℝ) :
    ∀ (k : ℕ) (ψ : QState n),
      runGates n (((List.range k).map (rotTriple theta)).flatten) ψ
        = rotsSpec n theta k ψ := by
  intro k
  induction k with
  | zero => intro ψ; rfl
  | succ k ih =>
    intro ψ
    rw [List.range_succ, List.map_append, List.flatten_append, runGates_append, ih]
    rfl

theorem runGates_ents (n : ℕ) :
    ∀ (k : ℕ) (ψ : QState n),
      runGates n ((List.range k).map (fun w => Gate.cnot w ((w + 1) % n))) ψ
        = cnotsSpec n k ψ := by
  intro k
  induction k with
  | zero => intro ψ; rfl
  | succ k ih =>
    intro ψ
    rw [List.range_succ, List.map_append, runGates_append, ih]
    rfl

theorem runGates_layer (n : ℕ) (theta : ℕ → ℕ → ℝ) (ψ : QState n) :
    runGates n (qae_layer n theta) ψ = layerSpec n theta ψ := by
  unfold qae_layer layerSpec entGates
  rw [runGates_append, runGates_rots, runGates_ents]

theorem runGates_layers (n : ℕ) (W : ℕ → ℕ → ℕ → ℝ) :
    ∀ (L : ℕ) (ψ : QState n),
      runGates n (((List.range L).map (fun l => qae_layer n (W l))).flatten) ψ
        = layersSpec n W L ψ := by
  intro L
  induction L with
  | zero => intro ψ; rfl
  | succ L ih =>
    intro ψ
    rw [List.range_succ, List.map_append, List.flatten_append, runGates_append, ih,
      List.map_singleton, List.flatten_cons, List.flatten_nil, List.append_nil,
      runGates_layer]
    rfl

/-- C3: the source's forward evaluation is exactly the function the spec
describes: initialize, RY-encode each qubit with the sample components, apply
the L variational layers in order (RX, RY, RZ on every qubit, then the CNOT
ring with its wrap-around edge), and return the Pauli-Z expectation of the
last (trash) qubit; it is a pure function of the sample and the parameters. -/
theorem forward_matches_spec (n L : ℕ) (x : ℕ → ℝ) (W : ℕ → ℕ → ℕ → ℝ) :
    qae_circuit n L x W = forwardSpec n L x W := by
  unfold qae_circuit forwardSpec circuitGates encGates
  rw [runGates_append, runGates_enc, runGates_layers]

/-! Linearity of the gate semantics in the state, and linearity of the gate
application in the matrix: the ingredients of the parameter-shift rule. -/

theorem applyM_combo {n : ℕ} (m : Bool → Bool → ℂ) (w : ℕ) (c d : ℂ) (ψ φ : QState n) :
    applyM n m w (c • ψ + d • φ) = c • applyM n m w ψ + d • applyM n m w φ := by
  unfold applyM
  split_ifs with h
  · funext b
    simp only [Pi.add_apply, Pi.smul_apply, smul_eq_mul]
    ring
  · rfl

theorem applyCNOT_combo {n : ℕ} (cw tw : ℕ) (c d : ℂ) (ψ φ : QState n) :
    applyCNOT n cw tw (c • ψ + d • φ) = c • applyCNOT n cw tw ψ + d • applyCNOT n cw tw φ := by
  unfold applyCNOT
  split_ifs with h
  · funext b
    simp only [Pi.add_apply, Pi.smul_apply, smul_eq_mul]
  · rfl

theorem applyG_combo {n : ℕ} (g : Gate) (c d : ℂ) (ψ φ : QState n) :
    applyG n g (c • ψ + d • φ) = c • applyG n g ψ + d • applyG n g φ := by
  cases g with
  | rot a t w => exact applyM_combo _ _ c d ψ φ
  | cnot cw tw => exact applyCNOT_combo _ _ c d ψ φ

theorem runGates_combo {n : ℕ} (gs : List Gate) (c d : ℂ) (ψ φ : QState n) :
    runGates n gs (c • ψ + d • φ) = c • runGates n gs ψ + d • runGates n gs φ := by
  induction gs generalizing ψ φ with
  | nil => rfl
  | cons g gs ih =>
    simp only [runGates, List.foldl_cons] at *
    rw [applyG_combo, ih]

/-- Identity matrix entries. -/
def idM : Bool → Bool → ℂ := fun r c => if r = c then 1 else 0

/-- Entries of the coefficient matrix of sin(t/2) in the rotation gate about
each axis: -iX for the X axis, the real antisymmetric matrix for Y, -iZ for Z. -/
def jM : Axis → Bool → Bool → ℂ
  | Axis.X => fun r c => if r = c then 0 else -Complex.I
  | Axis.Y => fun r c => if r = c then 0 else if r then 1 else -1
  | Axis.Z => fun r c => if r = c then (if r then Complex.I else -Complex.I) else 0

theorem rotM_decomp (a : Axis) (t : ℝ) (r c : Bool) :
    rotM a t r c
      = (Real.cos (t / 2) : ℂ) * idM r c + (Real.sin (t / 2) : ℂ) * jM a r c := by
  cases a with
  | X =>
    cases r <;> cases c <;> simp [rotM, idM, jM] <;> ring
  | Y =>
    cases r <;> cases c <;> simp [rotM, idM, jM]
  | Z =>
    cases r with
    | false =>
      cases c with
      | false =>
        show Complex.exp (((-(t / 2) : ℝ) : ℂ) * Complex.I)
            = (Real.cos (t / 2) : ℂ) * idM false false
              + (Real.sin (t / 2) : ℂ) * jM Axis.Z false false
        rw [Complex.exp_mul_I, ← Complex.ofReal_cos, ← Complex.ofReal_sin,
          Real.cos_neg, Real.sin_neg]
        simp [idM, jM]
      | true => simp [rotM, idM, jM]
    | true =>
      cases c with
      | false => simp [rotM, idM, jM]
      | true =>
        show Complex.exp (((t / 2 : ℝ) : ℂ) * Complex.I)
            = (Real.cos (t / 2) : ℂ) * idM true true
              + (Real.sin (t / 2) : ℂ) * jM Axis.Z true true
        rw [Complex.exp_mul_I, ← Complex.ofReal_cos, ← Complex.ofReal_sin]
        simp [idM, jM]

theorem applyM_matrix_combo {n : ℕ} (m1 m2 : Bool → Bool → ℂ) (w : ℕ) (hw : w < n)
    (c d : ℂ) (ψ : QState n) :
    applyM n (fun r s => c * m1 r s + d * m2 r s) w ψ
      = c • applyM n m1 w ψ + d • applyM n m2 w ψ := by
  simp only [applyM, dif_pos hw]
  funext b
  simp only [Pi.add_apply, Pi.smul_apply, smul_eq_mul]
  ring

theorem applyM_rot_decomp {n : ℕ} (a : Axis) (t : ℝ) (w : ℕ) (hw : w < n) (ψ : QState n) :
    applyM n (rotM a t) w ψ
      = (Real.cos (t / 2) : ℂ) • applyM n idM w ψ
        + (Real.sin (t / 2) : ℂ) • applyM n (jM a) w ψ := by
  have hm : rotM a t
      = fun r s => (Real.cos (t / 2) : ℂ) * idM r s + (Real.sin (t / 2) : ℂ) * jM a r s := by
    funext r s
    exact rotM_decomp a t r s
  rw [hm, applyM_matrix_combo _ _ _ hw]

theorem expZ_combo (n mw : ℕ) (u v : QState n) (c s : ℝ) :
    expZ n mw ((c : ℂ) • u + (s : ℂ) • v)
      = c ^ 2 * expZ n mw u + s ^ 2 * expZ n mw v
        + (2 * c * s) * ∑ b : Fin n → Bool, zsign n mw b * (u b * conj (v b)).re := by
  unfold expZ
  rw [Finset.mul_sum, Finset.mul_sum, Finset.mul_sum, ← Finset.sum_add_distrib,
    ← Finset.sum_add_distrib]
  refine Finset.sum_congr rfl (fun b _ => ?_)
  simp only [Pi.add_apply, Pi.smul_apply, smul_eq_mul]
  rw [Complex.normSq_add, Complex.normSq_mul, Complex.normSq_mul,
    Complex.normSq_ofReal, Complex.normSq_ofReal]
  have hcross : ((c : ℂ) * u b * conj ((s : ℂ) * v b)).re
      = c * s * (u b * conj (v b)).re := by
    rw [map_mul, Complex.conj_ofReal]
    have h1 : (c : ℂ) * u b * ((s : ℂ) * conj (v b))
        = ((c * s : ℝ) : ℂ) * (u b * conj (v b)) := by
      push_cast
      ring
    rw [h1]
    simp [Complex.mul_re]
  rw [hcross]
  ring

/-- The expectation value, as a function of one rotation angle with everything
around it a fixed linear map, is a sinusoid A + B cos t + C sin t. -/
theorem expZ_rot_sinusoidal {n : ℕ} (mw w : ℕ) (hw : w < n) (a : Axis) (ψ0 : QState n)
    (T : QState n → QState n)
    (hT : ∀ (c d : ℂ) (ψ φ : QState n), T (c • ψ + d • φ) = c • T ψ + d • T φ) :
    ∃ A B C : ℝ, ∀ t : ℝ,
      expZ n mw (T (applyM n (rotM a t) w ψ0)) = A + B * Real.cos t + C * Real.sin t := by
  set u := T (applyM n idM w ψ0) with hu
  set v := T (applyM n (jM a) w ψ0) with hv
  refine ⟨(expZ n mw u + expZ n mw v) / 2, (expZ n mw u - expZ n mw v) / 2,
    ∑ b : Fin n → Bool, zsign n mw b * (u b * conj (v b)).re, fun t => ?_⟩
  rw [applyM_rot_decomp a t w hw, hT, ← hu, ← hv, expZ_combo]
  have hc2 : Real.cos (t / 2) ^ 2 = 1 / 2 + Real.cos t / 2 := by
    have h := Real.cos_sq (t / 2)
    have h2 : 2 * (t / 2) = t := by ring
    rw [h, h2]
  have hs2 : Real.sin (t / 2) ^ 2 = 1 / 2 - Real.cos t / 2 := by
    have h := Real.sin_sq (t / 2)
    rw [h, hc2]
    ring
  have hcs : 2 * Real.cos (t / 2) * Real.sin (t / 2) = Real.sin t := by
    have h2 : 2 * (t / 2) = t := by ring
    have h3 := Real.sin_two_mul (t / 2)
    rw [h2] at h3
    linarith [h3]
  rw [hc2, hs2, hcs]
  ring

/-- A sinusoid has, at every point, derivative equal to half the difference of
its values a quarter period to the right and to the left. -/
theorem hasDerivAt_shift_of_sinusoidal (E : ℝ → ℝ) (A B C θ : ℝ)
    (hE : ∀ t, E t = A + B * Real.cos t + C * Real.sin t) :
    HasDerivAt E ((E (θ + Real.pi / 2) - E (θ - Real.pi / 2)) / 2) θ := by
  have hfun : E = fun t => A + B * Real.cos t + C * Real.sin t := funext hE
  have hd : HasDerivAt (fun t => A + B * Real.cos t + C * Real.sin t)
      (0 + B * -Real.sin θ + C * Real.cos θ) θ :=
    ((hasDerivAt_const θ A).add ((Real.hasDerivAt_cos θ).const_mul B)).add
      ((Real.hasDerivAt_sin θ).const_mul C)
  have hval : (E (θ + Real.pi / 2) - E (θ - Real.pi / 2)) / 2
      = 0 + B * -Real.sin θ + C * Real.cos θ := by
    rw [hE, hE, Real.cos_add, Real.sin_add, Real.cos_sub, Real.sin_sub,
      Real.cos_pi_div_two, Real.sin_pi_div_two]
    ring
  rw [hval, hfun]
  exact hd

/-! Factoring the circuit's gate list around one updated parameter. -/

/-- Parameter tensor with entry (l, w, a) replaced by t, all others kept. -/
def updParam (W : ℕ → ℕ → ℕ → ℝ) (l w a : ℕ) (t : ℝ) : ℕ → ℕ → ℕ → ℝ :=
  fun l' w' a' => if l' = l ∧ w' = w ∧ a' = a then t else W l' w' a'

theorem updParam_layer_ne (W : ℕ → ℕ → ℕ → ℝ) (l w a : ℕ) (t : ℝ) (l' : ℕ)
    (hne : l' ≠ l) : updParam W l w a t l' = W l' := by
  funext w' a'
  simp [updParam, hne]

theorem updParam_at_layer (W : ℕ → ℕ → ℕ → ℝ) (l w a : ℕ) (t : ℝ) :
    updParam W l w a t l = fun w' a' => if w' = w ∧ a' = a then t else W l w' a' := by
  funext w' a'
  simp [updParam]

theorem flatten_map_range_split {β : Type*} (f g : ℕ → List β) (k m : ℕ) (hk : k < m)
    (hfg : ∀ j, j ≠ k → f j = g j) :
    ((List.range m).map f).flatten
      = ((List.range k).map g).flatten
          ++ (f k ++ ((List.range (m - (k + 1))).map (fun i => g ((k + 1) + i))).flatten) := by
  have hm : m = (k + 1) + (m - (k + 1)) := by omega
  rw [hm, List.range_add, List.range_succ, List.map_append, List.map_append,
    List.flatten_append, List.flatten_append]
  have h1 : (List.range k).map f = (List.range k).map g :=
    List.map_congr_left (fun j hj => hfg j (Nat.ne_of_lt (List.mem_range.mp hj)))
  have h2 : ((List.range (m - (k + 1))).map ((k + 1) + ·)).map f
      = (List.range (m - (k + 1))).map (fun i => g ((k + 1) + i)) := by
    rw [List.map_map]
    exact List.map_congr_left (fun j _ => hfg ((k + 1) + j) (by omega))
  rw [h1, h2]
  simp [List.append_assoc]

/-- Updating the single parameter (l, w, a) changes exactly one rotation angle
of the circuit's gate list: the list splits as a fixed head, the wire's
rotation triple in which one angle is the free parameter, and a fixed tail. -/
theorem circuit_factor (n L : ℕ) (x : ℕ → ℝ) (W : ℕ → ℕ → ℕ → ℝ) (l w a : ℕ)
    (hl : l < L) (hw : w < n) :
    ∃ pre post : List Gate, ∀ t : ℝ,
      circuitGates n L x (updParam W l w a t)
        = pre ++ ([Gate.rot Axis.X (if a = 0 then t else W l w 0) w,
                   Gate.rot Axis.Y (if a = 1 then t else W l w 1) w,
                   Gate.rot Axis.Z (if a = 2 then t else W l w 2) w] ++ post) := by
  refine ⟨encGates n x
      ++ (((List.range l).map (fun j => qae_layer n (W j))).flatten
        ++ ((List.range w).map (rotTriple (W l))).flatten),
    (((List.range (n - (w + 1))).map (fun i => rotTriple (W l) ((w + 1) + i))).flatten
        ++ entGates n)
      ++ ((List.range (L - (l + 1))).map (fun i => qae_layer n (W ((l + 1) + i)))).flatten,
    fun t => ?_⟩
  unfold circuitGates
  rw [flatten_map_range_split (fun j => qae_layer n (updParam W l w a t j))
    (fun j => qae_layer n (W j)) l L hl
    (fun j hj => by
      show qae_layer n (updParam W l w a t j) = qae_layer n (W j)
      rw [updParam_layer_ne W l w a t j hj])]
  rw [updParam_at_layer]
  unfold qae_layer
  rw [flatten_map_range_split
    (rotTriple (fun w' a' => if w' = w ∧ a' = a then t else W l w' a'))
    (rotTriple (W l)) w n hw
    (fun j hj => by simp [rotTriple, hj])]
  have hang : ∀ j : ℕ, (fun w' a' => if w' = w ∧ a' = a then t else W l w' a') w j
      = if a = j then t else W l w j := by
    intro j
    show (if w = w ∧ j = a then t else W l w j) = if a = j then t else W l w j
    by_cases h : a = j
    · subst h
      rw [if_pos (And.intro rfl rfl), if_pos rfl]
    · rw [if_neg (fun hc => h hc.2.symm), if_neg h]
  have htrip : rotTriple (fun w' a' => if w' = w ∧ a' = a then t else W l w' a') w
      = [Gate.rot Axis.X (if a = 0 then t else W l w 0) w,
         Gate.rot Axis.Y (if a = 1 then t else W l w 1) w,
         Gate.rot Axis.Z (if a = 2 then t else W l w 2) w] := by
    unfold rotTriple
    rw [hang 0, hang 1, hang 2]
  rw [htrip]
  simp [List.append_assoc]

/-- C1: for every parameter index (l, w, a) of the L-by-n-by-3 parameter
tensor, with all other parameters held fixed, the circuit's expectation value
as a function of that parameter has exact derivative
(E(theta + pi/2) - E(theta - pi/2)) / 2 at the current value theta, where E is
the forward evaluation at the shifted parameter. -/
theorem parameter_shift_rule (n L : ℕ) (x : ℕ → ℝ) (W : ℕ → ℕ → ℕ → ℝ) (l w a : ℕ)
    (hl : l < L) (hw : w < n) (ha : a < 3) :
    HasDerivAt (fun t => qae_circuit n L x (updParam W l w a t))
      ((qae_circuit n L x (updParam W l w a (W l w a + Real.pi / 2))
        - qae_circuit n L x (updParam W l w a (W l w a - Real.pi / 2))) / 2)
      (W l w a) := by
  obtain ⟨pre, post, hfac⟩ := circuit_factor n L x W l w a hl hw
  have ha3 : a = 0 ∨ a = 1 ∨ a = 2 := by omega
  rcases ha3 with ha' | ha' | ha'
  · subst ha'
    obtain ⟨A, B, C, hABC⟩ := expZ_rot_sinusoidal (n := n) (n - 1) w hw Axis.X
      (runGates n pre (initState n))
      (fun ψ => runGates n post
        (applyM n (rotM Axis.Z (W l w 2)) w (applyM n (rotM Axis.Y (W l w 1)) w ψ)))
      (fun c d ψ φ => by simp only [applyM_combo, runGates_combo])
    have hE : ∀ t, qae_circuit n L x (updParam W l w 0 t)
        = A + B * Real.cos t + C * Real.sin t := by
      intro t
      unfold qae_circuit
      rw [hfac t, runGates_append, runGates_append]
      exact hABC t
    exact hasDerivAt_shift_of_sinusoidal _ A B C _ hE
  · subst ha'
    obtain ⟨A, B, C, hABC⟩ := expZ_rot_sinusoidal (n := n) (n - 1) w hw Axis.Y
      (applyM n (rotM Axis.X (W l w 0)) w (runGates n pre (initState n)))
      (fun ψ => runGates n post (applyM n (rotM Axis.Z (W l w 2)) w ψ))
      (fun c d ψ φ => by simp only [applyM_combo, runGates_combo])
    have hE : ∀ t, qae_circuit n L x (updParam W l w 1 t)
        = A + B * Real.cos t + C * Real.sin t := by
      intro t
      unfold qae_circuit
      rw [hfac t, runGates_append, runGates_append]
      exact hABC t
    exact hasDerivAt_shift_of_sinusoidal _ A B C _ hE
  · subst ha'
    obtain ⟨A, B, C, hABC⟩ := expZ_rot_sinusoidal (n := n) (n - 1) w hw Axis.Z
      (applyM n (rotM Axis.Y (W l w 1)) w
        (applyM n (rotM Axis.X (W l w 0)) w (runGates n pre (initState n))))
      (fun ψ => runGates n post ψ)
      (fun c d ψ φ => by simp only [runGates_combo])
    have hE : ∀ t, qae_circuit n L x (updParam W l w 2 t)
        = A + B * Real.cos t + C * Real.sin t := by
      intro t
      unfold qae_circuit
      rw [hfac t, runGates_append, runGates_append]
      exact hABC t
    exact hasDerivAt_shift_of_sinusoidal _ A B C _ hE

/-- Witness for C1 at a concrete parameter index of the source's 4-qubit,
4-layer configuration. -/
theorem parameter_shift_rule_witness :
    HasDerivAt
      (fun t => qae_circuit 4 4 (fun _ => 0) (updParam (fun _ _ _ => 0) 0 0 0 t))
      ((qae_circuit 4 4 (fun _ => 0)
          (updParam (fun _ _ _ => 0) 0 0 0 ((fun _ _ _ => (0 : ℝ)) 0 0 0 + Real.pi / 2))
        - qae_circuit 4 4 (fun _ => 0)
          (updParam (fun _ _ _ => 0) 0 0 0 ((fun _ _ _ => (0 : ℝ)) 0 0 0 - Real.pi / 2))) / 2)
      ((fun _ _ _ => (0 : ℝ)) 0 0 0) :=
  parameter_shift_rule 4 4 (fun _ => 0) (fun _ _ _ => 0) 0 0 0
    (by decide) (by decide) (by decide)

/-! The Adam optimizer.  The notebook constructs qml.AdamOptimizer with
stepsize 0.001 and calls its step method once per mini-batch; the optimizer
implementation itself is external PennyLane library code not present in this
repository. -/

/-- Optimizer state: first and second moment accumulators with the shape of
the parameter tensor, and the step counter. -/
structure AdamState where
  m : ℕ → ℕ → ℕ → ℝ
  v : ℕ → ℕ → ℕ → ℝ
  t : ℕ

/-- Modelled from the spec: the Adam update of section 4.5 (the optimizer body
is qml.AdamOptimizer, library code missing from the repository).  Per step,
given gradient g: m = b1 m + (1-b1) g, v = b2 v + (1-b2) g^2 elementwise, the
bias-corrected moments divide by 1 - b^t with t the incremented counter, and
theta moves by -al mhat / (sqrt(vhat) + eps). -/
noncomputable def adamStep (al b1 b2 eps : ℝ) (s : AdamState)
    (theta g : ℕ → ℕ → ℕ → ℝ) : AdamState × (ℕ → ℕ → ℕ → ℝ) :=
  let m' := fun i j k => b1 * s.m i j k + (1 - b1) * g i j k
  let v' := fun i j k => b2 * s.v i j k + (1 - b2) * g i j k ^ 2
  let t' := s.t + 1
  (⟨m', v', t'⟩,
    fun i j k => theta i j k
      - al * (m' i j k / (1 - b1 ^ t'))
          / (Real.sqrt (v' i j k / (1 - b2 ^ t')) + eps))

/-- Step size the source passes to the optimizer. -/
noncomputable def adamStepsize : ℝ := 0.001

/-- Modelled from the spec: default first-moment decay of the optimizer. -/
noncomputable def adamBeta1 : ℝ := 0.9

/-- Modelled from the spec: default second-moment decay of the optimizer. -/
noncomputable def adamBeta2 : ℝ := 0.999

/-- Modelled from the spec: default denominator offset of the optimizer. -/
noncomputable def adamEps : ℝ := 1e-8

/-- C4: each optimizer step updates the moments as m = b1 m + (1-b1) g and
v = b2 v + (1-b2) g^2 elementwise, increments the step counter by exactly 1,
and moves every parameter by -al mhat / (sqrt(vhat) + eps) with the
bias-corrected moments, at hyperparameters al = 0.001, b1 = 0.9, b2 = 0.999,
eps = 1e-8. -/
theorem adam_step_equations (s : AdamState) (theta g : ℕ → ℕ → ℕ → ℝ) (i j k : ℕ) :
    (adamStep adamStepsize adamBeta1 adamBeta2 adamEps s theta g).1.t = s.t + 1
    ∧ (adamStep adamStepsize adamBeta1 adamBeta2 adamEps s theta g).1.m i j k
        = adamBeta1 * s.m i j k + (1 - adamBeta1) * g i j k
    ∧ (adamStep adamStepsize adamBeta1 adamBeta2 adamEps s theta g).1.v i j k
        = adamBeta2 * s.v i j k + (1 - adamBeta2) * g i j k ^ 2
    ∧ (adamStep adamStepsize adamBeta1 adamBeta2 adamEps s theta g).2 i j k
        = theta i j k
          - adamStepsize
              * ((adamBeta1 * s.m i j k + (1 - adamBeta1) * g i j k)
                  / (1 - adamBeta1 ^ (s.t + 1)))
              / (Real.sqrt ((adamBeta2 * s.v i j k + (1 - adamBeta2) * g i j k ^ 2)
                  / (1 - adamBeta2 ^ (s.t + 1))) + adamEps)
    ∧ adamStepsize = 0.001 ∧ adamBeta1 = 0.9 ∧ adamBeta2 = 0.999 ∧ adamEps = 1e-8 :=
  ⟨rfl, rfl, rfl, rfl, rfl, rfl, rfl, rfl⟩

/-! The training loop on an empty dataset. -/

theorem batchList_nil {α : Type*} (bs : ℕ) : batchList ([] : List α) bs = [] := by
  have h0 : numBatches ([] : List α).length bs = 0 := by
    unfold numBatches
    simp only [List.length_nil, Nat.zero_add]
    rcases Nat.eq_zero_or_pos bs with h | h
    · subst h
      rfl
    · exact Nat.div_eq_of_lt (by omega)
  unfold batchList
  rw [h0]
  rfl

/-- C7: on an empty training set the run fails rather than completing as a
silent no-op: for every optimizer-step function, batch size and epoch count of
at least one, the training loop returns none (the monitoring evaluation of the
cost on the empty leading slice raises), never some unchanged parameters. -/
theorem empty_dataset_fails (step : (ℕ → ℕ → ℕ → ℝ) → List (ℕ → ℝ) → (ℕ → ℕ → ℕ → ℝ))
    (n L bs : ℕ) (W : ℕ → ℕ → ℕ → ℝ) (e : ℕ) (he : 1 ≤ e) :
    QAE.train step n L bs [] e W = none := by
  cases e with
  | zero => exact absurd he (by norm_num)
  | succ e =>
    unfold train trainEpoch
    rw [batchList_nil]
    simp [cost_fn]

/-- Witness for C7 with one epoch, batch size 16 and a trivial step. -/
theorem empty_dataset_fails_witness :
    QAE.train (fun Wc _ => Wc) 4 4 16 [] 1 (fun _ _ _ => 0) = none :=
  empty_dataset_fails (fun Wc _ => Wc) 4 4 16 (fun _ _ _ => 0) 1 (le_refl 1)

/-! Mini-batch slicing: counterexample to full-size final slices, and the
clamped characterization that the code actually implements. -/

/-- C6 counterexample: with a 3-sample dataset and batch size 2, the second
mini-batch does not consist of the two samples with indices in [2, 4): it has
only one element, since slicing clamps at the end of the dataset. -/
theorem batch_full_range_cex :
    ¬ (batchSlice ([0, 1, 2] : List ℕ) 2 1).length = 2 := by
  decide

/-- C6 amended: mini-batch j is the contiguous slice of the dataset starting
at index j*bs, clamped at the end of the dataset: its length is
min bs (N - j*bs) and its i-th element (for i < bs) is the sample with index
j*bs + i; the slices depend only on j, identically across epochs. -/
theorem batch_slices_amended {α : Type*} (xs : List α) (bs j : ℕ) :
    (batchSlice xs bs j).length = min bs (xs.length - j * bs)
    ∧ ∀ i : ℕ, (batchSlice xs bs j)[i]? = if i < bs then xs[j * bs + i]? else none := by
  constructor
  · simp [batchSlice]
  · intro i
    simp [batchSlice, List.getElem?_take, List.getElem?_drop]

/-! Every sample lies in exactly one mini-batch: the batches concatenate back
to the dataset, the ragged final batch included. -/

theorem batchSlice_succ {α : Type*} (xs : List α) (bs j : ℕ) :
    batchSlice xs bs (j + 1) = batchSlice (xs.drop bs) bs j := by
  unfold batchSlice
  rw [List.drop_drop, show bs + j * bs = (j + 1) * bs by ring]

theorem numBatches_succ (N bs : ℕ) (hN : 0 < N) (hbs : 0 < bs) :
    numBatches N bs = numBatches (N - bs) bs + 1 := by
  unfold numBatches
  rcases le_or_lt bs N with h | h
  · have e1 : N + bs - 1 = (N - bs + bs - 1) + bs := by omega
    rw [e1, Nat.add_div_right _ hbs]
  · have e0 : N - bs = 0 := by omega
    rw [e0]
    have h1 : (0 + bs - 1) / bs = 0 := Nat.div_eq_of_lt (by omega)
    have h2 : (N + bs - 1) / bs = 1 :=
      Nat.div_eq_of_lt_le (by omega) (by omega)
    rw [h1, h2]

theorem batches_cover_aux {α : Type*} (bs : ℕ) (hbs : 0 < bs) :
    ∀ (N : ℕ) (xs : List α), xs.length ≤ N → (batchList xs bs).flatten = xs := by
  intro N
  induction N with
  | zero =>
    intro xs h
    have hx : xs = [] := List.eq_nil_of_length_eq_zero (by omega)
    subst hx
    rw [batchList_nil]
    rfl
  | succ N ih =>
    intro xs h
    rcases xs with _ | ⟨y, ys⟩
    · rw [batchList_nil]
      rfl
    · have hN0 : 0 < (y :: ys).length := by simp
      unfold batchList
      rw [numBatches_succ _ bs hN0 hbs, List.range_succ_eq_map, List.map_cons,
        List.map_map, List.flatten_cons]
      have hhead : batchSlice (y :: ys) bs 0 = (y :: ys).take bs := by
        unfold batchSlice
        rw [Nat.zero_mul, List.drop_zero]
      have htail : (List.range (numBatches ((y :: ys).length - bs) bs)).map
            (batchSlice (y :: ys) bs ∘ Nat.succ)
          = (List.range (numBatches (((y :: ys).drop bs).length) bs)).map
            (batchSlice ((y :: ys).drop bs) bs) := by
        rw [List.length_drop]
        exact List.map_congr_left (fun j _ => batchSlice_succ (y :: ys) bs j)
      rw [hhead, htail]
      have hrec : (batchList ((y :: ys).drop bs) bs).flatten = (y :: ys).drop bs := by
        apply ih
        rw [List.length_drop]
        omega
      unfold batchList at hrec
      rw [hrec, List.take_append_drop]

/-- C10: in every epoch the mini-batch slices partition the training set; in
particular when the dataset size is not divisible by the batch size the final
batch holds the remaining fewer-than-bs samples rather than being dropped:
concatenating all batches gives back exactly the dataset. -/
theorem batches_partition {α : Type*} (xs : List α) (bs : ℕ) (hbs : 0 < bs) :
    (batchList xs bs).flatten = xs :=
  batches_cover_aux bs hbs xs.length xs (le_refl _)

/-- Witness for C10 on a dataset whose size is not divisible by the batch
size. -/
theorem batches_partition_witness :
    (batchList ([0, 1, 2] : List ℕ) 2).flatten = [0, 1, 2] :=
  batches_partition [0, 1, 2] 2 (by decide)

/-! Evaluation metrics of the source. -/

/-- Count of sample pairs whose true label is a and predicted label is b, as
the confusion matrix of the source computes them for labels 0 and 1. -/
def countPair (y p : List ℕ) (a b : ℕ) : ℕ :=
  ((y.zip p).filter (fun q => q.1 == a && q.2 == b)).length

/-- Output record of the source's metrics function. -/
structure MetricsOut where
  TN : ℕ
  FP : ℕ
  FN : ℕ
  TP : ℕ
  Accuracy : ℝ
  Precision : ℝ
  Recall : ℝ
  F1 : ℝ
  Specificity : ℝ
  Gmean : ℝ

/-- Metrics of the source: confusion counts, accuracy as the matching
fraction, precision, recall and F1 with sklearn's zero_division=0 handling
(the ratio is 0 when its denominator is 0), specificity tn/(tn+fp) guarded by
the source's explicit if, and the geometric mean (rec*spec)**0.5, written here
as the real square root of the nonnegative product. -/
noncomputable def metrics (y_true y_pred : List ℕ) : MetricsOut :=
  let tn := countPair y_true y_pred 0 0
  let fp := countPair y_true y_pred 0 1
  let fn := countPair y_true y_pred 1 0
  let tp := countPair y_true y_pred 1 1
  let prec := if tp + fp = 0 then (0 : ℝ) else (tp : ℝ) / ((tp : ℝ) + (fp : ℝ))
  let rcl := if tp + fn = 0 then (0 : ℝ) else (tp : ℝ) / ((tp : ℝ) + (fn : ℝ))
  let f1v := if 2 * tp + fp + fn = 0 then (0 : ℝ)
    else 2 * (tp : ℝ) / (2 * (tp : ℝ) + (fp : ℝ) + (fn : ℝ))
  let spc := if tn + fp = 0 then (0 : ℝ) else (tn : ℝ) / ((tn : ℝ) + (fp : ℝ))
  { TN := tn, FP := fp, FN := fn, TP := tp
    Accuracy := (((y_true.zip y_pred).filter (fun q => q.1 == q.2)).length : ℝ)
      / (y_true.length : ℝ)
    Precision := prec
    Recall := rcl
    F1 := f1v
    Specificity := spc
    Gmean := Real.sqrt (rcl * spc) }

/-- C8: the metrics are total (no arithmetic fault on zero-count
denominators): specificity equals TN/(TN+FP) under the division-by-zero-is-0
convention and is 0 when TN+FP = 0, the geometric mean equals
sqrt(recall * specificity) exactly and is 0 whenever either factor is 0, and
precision, recall and F1 are each 0 when their denominator count is 0. -/
theorem metrics_zero_denominators (y_true y_pred : List ℕ) :
    (metrics y_true y_pred).Specificity
        = ((metrics y_true y_pred).TN : ℝ)
            / (((metrics y_true y_pred).TN : ℝ) + ((metrics y_true y_pred).FP : ℝ))
    ∧ (metrics y_true y_pred).Gmean
        = Real.sqrt ((metrics y_true y_pred).Recall * (metrics y_true y_pred).Specificity)
    ∧ ((metrics y_true y_pred).Recall = 0 ∨ (metrics y_true y_pred).Specificity = 0
        → (metrics y_true y_pred).Gmean = 0)
    ∧ ((metrics y_true y_pred).TN + (metrics y_true y_pred).FP = 0
        → (metrics y_true y_pred).Specificity = 0)
    ∧ ((metrics y_true y_pred).TP + (metrics y_true y_pred).FP = 0
        → (metrics y_true y_pred).Precision = 0)
    ∧ ((metrics y_true y_pred).TP + (metrics y_true y_pred).FN = 0
        → (metrics y_true y_pred).Recall = 0)
    ∧ (2 * (metrics y_true y_pred).TP + (metrics y_true y_pred).FP
        + (metrics y_true y_pred).FN = 0 → (metrics y_true y_pred).F1 = 0) := by
  refine ⟨?_, rfl, ?_, ?_, ?_, ?_, ?_⟩
  · by_cases h : countPair y_true y_pred 0 0 + countPair y_true y_pred 0 1 = 0
    · have h0 : countPair y_true y_pred 0 0 = 0 := by omega
      have h1 : countPair y_true y_pred 0 1 = 0 := by omega
      simp [metrics, h, h0, h1]
    · simp [metrics, h]
  · intro h
    have hgm : (metrics y_true y_pred).Gmean
        = Real.sqrt ((metrics y_true y_pred).Recall * (metrics y_true y_pred).Specificity) :=
      rfl
    rcases h with h | h <;> rw [hgm, h] <;> simp
  · intro h
    simp [metrics] at h ⊢
    simp [h]
  · intro h
    simp [metrics] at h ⊢
    simp [h]
  · intro h
    simp [metrics] at h ⊢
    simp [h]
  · intro h
    simp [metrics] at h ⊢
    simp [h]

/-- Witness for C8 on empty label vectors, where every denominator count is
zero. -/
theorem metrics_zero_denominators_witness :
    (metrics [] []).Specificity
        = ((metrics [] []).TN : ℝ) / (((metrics [] []).TN : ℝ) + ((metrics [] []).FP : ℝ))
      ∧ (metrics [] []).Specificity = 0 ∧ (metrics [] []).Gmean = 0 :=
  ⟨(metrics_zero_denominators [] []).1,
   (metrics_zero_denominators [] []).2.2.2.1 rfl,
   (metrics_zero_denominators [] []).2.2.1 (Or.inr ((metrics_zero_denominators [] []).2.2.2.1 rfl))⟩

end QAE
